import Mathlib

/-!
Verification development for the regex-to-minimal-DFA pipeline
(parser.py, thompson.py, automaton.py, hopcroft.py of the repository).

Shallow embedding conventions:
* Python `str` values (states, regexes, postfix streams) are `String` or
  `List Char`; symbols are `Char` and the epsilon marker is the character ε.
* Python sets of strings or characters are represented canonically as
  strictly sorted, duplicate-free lists, so that list equality coincides
  with set equality (the semantics of every embedded routine is
  insensitive to set iteration order, as checked routine by routine).
* Python dicts are association lists in insertion order.
* Python exceptions (`ValueError`, `RegexValidationError`) become an
  `Except Err` result with one constructor per distinct raise site kind.
* The few unbounded `while` loops (epsilon closure, reachability scan,
  subset construction, Hopcroft refinement) take an explicit fuel that
  provably dominates the number of iterations the Python loop performs;
  the loop body is a verbatim translation.
-/

namespace RegexAut

/-! ## Decimal rendering of naturals (Python f-string `f"q{n}"` etc.) -/

/-- One decimal digit as a character. -/
def digitChar (n : Nat) : Char :=
  Char.ofNat (48 + n)

/-- Decimal digits of a natural number, most significant first, on the
nonzero branch; structural on a fuel that dominates the digit count so
that the definition evaluates inside the kernel. -/
def natDecAux : Nat → Nat → List Char → List Char
  | 0, _, acc => acc
  | _ + 1, 0, acc => acc
  | fuel + 1, n + 1, acc =>
    natDecAux fuel ((n + 1) / 10) (digitChar ((n + 1) % 10) :: acc)

/-- Decimal rendering of a natural number, as Python `str(n)`. -/
def natDec (n : Nat) : List Char :=
  if n = 0 then ['0'] else natDecAux n n []

/-- Value of a most-significant-first digit list, with accumulator. -/
def digitsVal (acc : Nat) : List Char → Nat
  | [] => acc
  | c :: cs => digitsVal (10 * acc + (c.toNat - 48)) cs

theorem digitChar_toNat (n : Nat) (h : n < 10) :
    (digitChar n).toNat = 48 + n := by
  interval_cases n <;> decide

theorem digitsVal_cons (acc : Nat) (c : Char) (cs : List Char) :
    digitsVal acc (c :: cs) = digitsVal (10 * acc + (c.toNat - 48)) cs := rfl

theorem digitsVal_natDecAux (fuel : Nat) :
    ∀ n, n ≤ fuel → ∀ acc : List Char,
      digitsVal 0 (natDecAux fuel n acc) = digitsVal n acc := by
  induction fuel with
  | zero =>
    intro n hn acc
    interval_cases n
    simp only [natDecAux]
  | succ f ih =>
    intro n hn acc
    rcases n with _ | m
    · simp only [natDecAux]
    · rw [natDecAux]
      rw [ih ((m + 1) / 10) (by omega)]
      rw [digitsVal_cons]
      rw [digitChar_toNat ((m + 1) % 10) (Nat.mod_lt _ (by norm_num))]
      congr 1
      omega

theorem digitsVal_natDec (n : Nat) : digitsVal 0 (natDec n) = n := by
  unfold natDec
  split
  next h =>
    subst h
    decide
  next h =>
    rw [digitsVal_natDecAux n n (Nat.le_refl n)]
    rfl

theorem natDec_injective : Function.Injective natDec := by
  intro a b h
  have := digitsVal_natDec a
  rw [h, digitsVal_natDec] at this
  omega

/-- A generated state name: a one-character tag followed by a decimal
index, as in the Python f-strings. -/
def tagName (tag : Char) (n : Nat) : String :=
  ⟨tag :: natDec n⟩

theorem tagName_inj (tag : Char) {a b : Nat} (h : tagName tag a = tagName tag b) :
    a = b := by
  apply natDec_injective
  have h₂ := congrArg String.data h
  simpa [tagName] using h₂

/-! ## Canonical sorted sets of strings and characters -/

/-- Lexicographic comparison of character lists by code point, the order
Python uses on strings. -/
def charListLt : List Char → List Char → Bool
  | [], [] => false
  | [], _ :: _ => true
  | _ :: _, [] => false
  | a :: as, b :: bs =>
    if a.toNat < b.toNat then true
    else if b.toNat < a.toNat then false
    else charListLt as bs

/-- Python string comparison. -/
def strLt (a b : String) : Bool :=
  charListLt a.data b.data

/-- Insert into a strictly sorted duplicate-free list of strings
(model of Python `set.add`). -/
def insS (a : String) : List String → List String
  | [] => [a]
  | b :: bs =>
    if a = b then b :: bs
    else if strLt a b then a :: b :: bs
    else b :: insS a bs

/-- Union of canonical string sets (model of Python `set.update`). -/
def unionS (xs ys : List String) : List String :=
  ys.foldl (fun acc a => insS a acc) xs

/-- Insert into a strictly sorted duplicate-free list of characters. -/
def insC (a : Char) : List Char → List Char
  | [] => [a]
  | b :: bs =>
    if a = b then b :: bs
    else if a.toNat < b.toNat then a :: b :: bs
    else b :: insC a bs

theorem mem_insS (a x : String) (l : List String) :
    x ∈ insS a l ↔ x = a ∨ x ∈ l := by
  induction l with
  | nil => simp [insS, eq_comm]
  | cons b bs ih =>
    simp only [insS]
    split
    next hab =>
      subst hab
      simp only [List.mem_cons]
      tauto
    next hab =>
      split
      next hlt =>
        simp only [List.mem_cons]
      next hlt =>
        simp only [List.mem_cons, ih]
        tauto

theorem mem_unionS (x : String) (xs ys : List String) :
    x ∈ unionS xs ys ↔ x ∈ xs ∨ x ∈ ys := by
  unfold unionS
  induction ys generalizing xs with
  | nil => simp
  | cons b bs ih =>
    simp only [List.foldl_cons, ih, mem_insS, List.mem_cons]
    tauto

/-! ## The automaton data model (automaton.py `Automaton`) -/

/-- Error kinds, one per distinct raise site in the embedded modules. -/
inductive Err where
  /-- `RegexValidationError` from parser.py. -/
  | invalidRegex : Err
  /-- thompson.py final stack cardinality check. -/
  | malformedPostfix : Err
  /-- thompson.py popping an operand from an empty stack
  (an `IndexError` in Python). -/
  | popEmpty : Err
  /-- automaton.py / hopcroft.py: operation requires a DFA. -/
  | notADFA : Err
  /-- automaton.py / hopcroft.py: automaton without initial state. -/
  | noInitial : Err
deriving Repr, DecidableEq

/-- The epsilon marker (automaton.py `EPSILON`). -/
def epsChar : Char := 'ε'

/-- Finite automaton: states, alphabet, transition table
state → symbol → set of states, optional initial state, accepting set.
The `_epsilon_cache` field of the Python class is a memo whose content
never changes any result, so it has no counterpart here. -/
structure Automaton where
  states : List String
  alphabet : List Char
  transitions : List (String × List (Char × List String))
  initial : Option String
  accepts : List String
deriving Repr, DecidableEq

/-- The empty automaton (`Automaton()` dataclass defaults). -/
def Automaton.empty : Automaton :=
  ⟨[], [], [], none, []⟩

/-- Association-list lookup (Python `dict.get(k, default)`). -/
def alookup {β : Type} (k : String) : List (String × β) → Option β
  | [] => none
  | (k₂, v) :: rest => if k = k₂ then some v else alookup k rest

/-- Update the value stored under an existing key, leaving entry order
unchanged; if the key is absent the entry is appended (Python dict
assignment). -/
def aupdate {β : Type} (k : String) (f : Option β → β) :
    List (String × β) → List (String × β)
  | [] => [(k, f none)]
  | (k₂, v) :: rest =>
    if k = k₂ then (k₂, f (some v)) :: rest else (k₂, v) :: aupdate k f rest

/-- Character-keyed association lookup. -/
def clookup {β : Type} (k : Char) : List (Char × β) → Option β
  | [] => none
  | (k₂, v) :: rest => if k = k₂ then some v else clookup k rest

/-- Character-keyed association update. -/
def cupdate {β : Type} (k : Char) (f : Option β → β) :
    List (Char × β) → List (Char × β)
  | [] => [(k, f none)]
  | (k₂, v) :: rest =>
    if k = k₂ then (k₂, f (some v)) :: rest else (k₂, v) :: cupdate k f rest

/-- `add_state(name, accept=…, initial=…)`: idempotent on the state set,
but accept and initial flags are still applied when the state exists. -/
def Automaton.addState (A : Automaton) (name : String)
    (accept : Bool) (initial : Bool) : Automaton :=
  if name ∈ A.states then
    { A with
      accepts := if accept then insS name A.accepts else A.accepts
      initial := if initial then some name else A.initial }
  else
    { A with
      states := insS name A.states
      transitions := A.transitions ++ [(name, [])]
      accepts := if accept then insS name A.accepts else A.accepts
      initial := if initial then some name else A.initial }

/-- `add_transition(src, symbol, dest)`. The `__debug__` membership check
never fires in the embedded algorithms (every caller adds both endpoint
states first), so the operation is modelled as total; when `src` has no
entry yet one is appended, matching `self.transitions[name] = {}` having
run in `add_state`. -/
def Automaton.addTransition (A : Automaton) (src : String) (sym : Char)
    (dest : String) : Automaton :=
  { A with
    alphabet := if sym = epsChar then A.alphabet else insC sym A.alphabet
    transitions :=
      aupdate src
        (fun buckets =>
          cupdate sym
            (fun ds => insS dest (ds.getD []))
            (buckets.getD []))
        A.transitions }

/-- `get_transitions(state, symbol)`: `transitions.get(state, {}).get(symbol, set())`
(the `.copy()` in the source only shields the caller from aliasing). -/
def Automaton.getTransitions (A : Automaton) (state : String) (sym : Char) :
    List String :=
  (clookup sym ((alookup state A.transitions).getD [])).getD []

/-- All epsilon successors of a state. -/
def Automaton.epsSucc (A : Automaton) (s : String) : List String :=
  A.getTransitions s epsChar

/-- Total number of transition destinations stored in the table; used as
a fuel bound (every state enters a closure or reachability set at most
once, and each insertion pushes at most this many successors overall). -/
def Automaton.transDestCount (A : Automaton) : Nat :=
  A.transitions.foldl (fun n e => e.2.foldl (fun m b => m + b.2.length) n) 0

/-- Depth-first epsilon-closure loop of `_epsilon_closure_single`:
pop a state, push every epsilon successor not yet in the closure.
The iteration order over the successor set does not affect the closure
(a set); the canonical representation keeps the result sorted. -/
def epsClosureGo (A : Automaton) : Nat → List String → List String → List String
  | 0, closure, _ => closure
  | _ + 1, closure, [] => closure
  | fuel + 1, closure, current :: stack =>
    let step := (A.epsSucc current).foldl
      (fun (p : List String × List String) d =>
        if d ∈ p.1 then p else (insS d p.1, d :: p.2))
      (closure, stack)
    epsClosureGo A fuel step.1 step.2

/-- `_epsilon_closure_single(state)` (the `_epsilon_cache` memo only
avoids recomputation). Each pop consumes one fuel unit; pops are bounded
by one plus the number of pushes, and every push accompanies a fresh
insertion into the closure, of which there are at most
`1 + transDestCount`, so the fuel below dominates the Python loop. -/
def Automaton.epsClosureSingle (A : Automaton) (s : String) : List String :=
  epsClosureGo A (A.transDestCount + 3) [s] [s]

/-- `epsilon_closure(states)` on a collection: union of the single-state
closures. -/
def Automaton.epsClosure (A : Automaton) (xs : List String) : List String :=
  xs.foldl (fun acc s => unionS acc (A.epsClosureSingle s)) []

/-- One input symbol step of `simulate_nfa`: move on the symbol from
every current state and close under epsilon. -/
def nfaStep (A : Automaton) (current : List String) (c : Char) : List String :=
  current.foldl
    (fun acc s =>
      (A.getTransitions s c).foldl
        (fun a2 d => unionS a2 (A.epsClosureSingle d)) acc)
    []

/-- The loop of `simulate_nfa`: on an empty next set the Python loop
breaks and the final accepting test over the empty set yields False. -/
def nfaRun (A : Automaton) (current : List String) : List Char → Bool
  | [] => current.any (fun s => s ∈ A.accepts)
  | c :: cs =>
    let next := nfaStep A current c
    if next.isEmpty then false else nfaRun A next cs

/-- `simulate_nfa(input_str)`. -/
def Automaton.simulateNfa (A : Automaton) (input : List Char) : Except Err Bool :=
  match A.initial with
  | none => .error .noInitial
  | some init => .ok (nfaRun A (A.epsClosure [init]) input)

/-- `is_deterministic()`: no state has an entry under the epsilon key and
every destination set has at most one element. -/
def Automaton.isDeterministic (A : Automaton) : Bool :=
  A.transitions.all
    (fun e => (clookup epsChar e.2).isNone && e.2.all (fun b => b.2.length ≤ 1))

/-- The loop of `simulate_dfa_path`: follow unique transitions, recording
the visited states; stop with the partial path and False as soon as the
current state lacks a unique transition on the next symbol. -/
def dfaGo (A : Automaton) (cur : String) : List Char → List String × Bool
  | [] => ([cur], cur ∈ A.accepts)
  | c :: cs =>
    match A.getTransitions cur c with
    | [d] =>
      let r := dfaGo A d cs
      (cur :: r.1, r.2)
    | _ => ([cur], false)

/-- `simulate_dfa_path(input_str)`. -/
def Automaton.simulateDfaPath (A : Automaton) (input : List Char) :
    Except Err (List String × Bool) :=
  if !A.isDeterministic then .error .notADFA
  else
    match A.initial with
    | none => .error .noInitial
    | some init => .ok (dfaGo A init input)

/-! ## Thompson construction (thompson.py) -/

/-- A partially built NFA piece: entry state and exit states in creation
order (a Python list). -/
structure Fragment where
  start : String
  accepts : List String
deriving Repr, DecidableEq

/-- `_new_state`: the name `s<counter>`. -/
def newState (counter : Nat) : String :=
  tagName 's' counter

/-- One token of `postfix_to_nfa`. The working state is the fragment
stack (head = Python top), the fresh-state counter, and the automaton
under construction. Popping an empty stack is the Python `IndexError`. -/
def thompsonStep (st : List Fragment × Nat × Automaton) (c : Char) :
    Except Err (List Fragment × Nat × Automaton) :=
  let (stack, counter, nfa) := st
  if c = '*' then
    match stack with
    | [] => .error .popEmpty
    | frag :: rest =>
      let start := newState counter
      let stop := newState (counter + 1)
      let nfa := (nfa.addState start false false).addState stop false false
      let nfa := (nfa.addTransition start epsChar frag.start).addTransition
        start epsChar stop
      let nfa := frag.accepts.foldl
        (fun m a => (m.addTransition a epsChar frag.start).addTransition a epsChar stop)
        nfa
      .ok (⟨start, [stop]⟩ :: rest, counter + 2, nfa)
  else if c = '+' then
    match stack with
    | [] => .error .popEmpty
    | frag :: rest =>
      let start := newState counter
      let stop := newState (counter + 1)
      let nfa := (nfa.addState start false false).addState stop false false
      let nfa := nfa.addTransition start epsChar frag.start
      let nfa := frag.accepts.foldl
        (fun m a => (m.addTransition a epsChar frag.start).addTransition a epsChar stop)
        nfa
      .ok (⟨start, [stop]⟩ :: rest, counter + 2, nfa)
  else if c = '.' then
    match stack with
    | frag2 :: frag1 :: rest =>
      let nfa := frag1.accepts.foldl
        (fun m a => m.addTransition a epsChar frag2.start) nfa
      .ok (⟨frag1.start, frag2.accepts⟩ :: rest, counter, nfa)
    | _ => .error .popEmpty
  else if c = '|' then
    match stack with
    | frag2 :: frag1 :: rest =>
      let start := newState counter
      let stop := newState (counter + 1)
      let nfa := (nfa.addState start false false).addState stop false false
      let nfa := (nfa.addTransition start epsChar frag1.start).addTransition
        start epsChar frag2.start
      let nfa := frag1.accepts.foldl
        (fun m a => m.addTransition a epsChar stop) nfa
      let nfa := frag2.accepts.foldl
        (fun m a => m.addTransition a epsChar stop) nfa
      .ok (⟨start, [stop]⟩ :: rest, counter + 2, nfa)
    | _ => .error .popEmpty
  else
    let start := newState counter
    let stop := newState (counter + 1)
    let nfa := (nfa.addState start false false).addState stop false false
    let nfa :=
      if c = epsChar then nfa.addTransition start epsChar stop
      else nfa.addTransition start c stop
    .ok (⟨start, [stop]⟩ :: stack, counter + 2, nfa)

/-- `postfix_to_nfa(postfix)`: fold the token handler over the stream,
then require exactly one fragment and wire its entry and exits as the
initial and accepting states. -/
def postfixToNfa (pf : List Char) : Except Err Automaton := do
  let (stack, _, nfa) ← pf.foldlM thompsonStep ([], 0, Automaton.empty)
  match stack with
  | [frag] =>
    pure
      { nfa with
        initial := some frag.start
        accepts := frag.accepts.foldl (fun acc a => insS a acc) nfa.accepts }
  | _ => .error .malformedPostfix

/-! ## Subset construction (automaton.py `determinize`) -/

/-- Worklist state of the subset construction: the map from closure sets
to DFA state names (dict, insertion ordered), the FIFO queue of
unprocessed sets (head = front), the fresh-name counter `used_names`, and
the DFA under construction. -/
structure DetSt where
  mapping : List (List String × String)
  pending : List (List String)
  used : Nat
  dfa : Automaton
deriving Repr, DecidableEq

/-- Lookup keyed by a canonical state set (Python frozenset key). -/
def setLookup (k : List String) : List (List String × String) → Option String
  | [] => none
  | (k₂, v) :: rest => if k = k₂ then some v else setLookup k rest

/-- Handling of one symbol for one popped subset: compute the move with
epsilon closure, skip when empty, otherwise name the target set (fresh
`q<used>` on first sight) and emit the transition. -/
def detSymStep (A : Automaton) (currentSet : List String) (currentName : String)
    (st : DetSt) (sym : Char) : DetSt :=
  let move := currentSet.foldl
    (fun acc ns =>
      (A.getTransitions ns sym).foldl
        (fun a2 d => unionS a2 (A.epsClosureSingle d)) acc)
    []
  if move.isEmpty then st
  else
    match setLookup move st.mapping with
    | some dst => { st with dfa := st.dfa.addTransition currentName sym dst }
    | none =>
      let newName := tagName 'q' st.used
      { mapping := st.mapping ++ [(move, newName)]
        pending := st.pending ++ [move]
        used := st.used + 1
        dfa := ((st.dfa.addState newName
            (move.any (fun s => s ∈ A.accepts)) false).addTransition
            currentName sym newName) }

/-- The worklist loop: pop the front subset, process every alphabet
symbol in sorted order (the canonical alphabet list is sorted). -/
def detLoop (A : Automaton) : Nat → DetSt → Automaton
  | 0, st => st.dfa
  | fuel + 1, st =>
    match st.pending with
    | [] => st.dfa
    | currentSet :: rest =>
      let currentName := (setLookup currentSet st.mapping).getD ""
      let st2 := A.alphabet.foldl (detSymStep A currentSet currentName)
        { st with pending := rest }
      detLoop A fuel st2

/-- `determinize()`. A subset is enqueued only when first inserted into
`mapping`, whose keys are distinct subsets of the NFA state set, so the
loop pops at most `2 ^ |states|` subsets and the fuel below dominates
the Python loop. When the automaton is already deterministic the input
itself is returned. -/
def Automaton.determinize (A : Automaton) : Except Err Automaton :=
  match A.initial with
  | none => .error .noInitial
  | some init =>
    if A.isDeterministic then .ok A
    else
      let startClosure := A.epsClosure [init]
      let dfa0 := Automaton.empty.addState "q0"
        (startClosure.any (fun s => s ∈ A.accepts)) true
      .ok (detLoop A (2 ^ A.states.length + 1)
        ⟨[(startClosure, "q0")], [startClosure], 1, dfa0⟩)

/-! ## Reachability scan (automaton.py `remove_unreachable`) -/

/-- Successors of a state across all symbols, in table order
(`for trans in transitions.get(s, {}).values(): for d in trans`). -/
def Automaton.allSucc (A : Automaton) (s : String) : List String :=
  ((alookup s A.transitions).getD []).foldl (fun acc b => acc ++ b.2) []

/-- The reachability stack loop: pop, skip if seen, otherwise record and
push the unseen successors. -/
def reachGo (A : Automaton) : Nat → List String → List String → List String
  | 0, reach, _ => reach
  | _ + 1, reach, [] => reach
  | fuel + 1, reach, s :: stack =>
    if s ∈ reach then reachGo A fuel reach stack
    else
      let reach2 := insS s reach
      let stack2 := (A.allSucc s).foldl
        (fun st d => if d ∈ reach2 then st else d :: st) stack
      reachGo A fuel reach2 stack2

/-- Canonical set of every transition destination in the table. -/
def allDestsCanon (A : Automaton) : List String :=
  A.transitions.foldl (fun acc e => e.2.foldl (fun ac b => unionS ac b.2) acc) []

/-- Superset of everything the reachability stack can ever hold: the
start state together with every destination. -/
def bfsUniverse (A : Automaton) (init : String) : List String :=
  insS init (allDestsCanon A)

/-- Loop-potential weight of a state: one pop plus its pushes. -/
def bfsWeight (A : Automaton) (s : String) : Nat :=
  1 + (A.allSucc s).length

/-- Remaining loop potential of the reachability scan: the weights of
the universe elements not yet visited. -/
def bfsBudget (A : Automaton) (init : String) (reach : List String) : Nat :=
  (((bfsUniverse A init).filter (fun s => s ∉ reach)).map (bfsWeight A)).sum

/-- The reachable-state set computed by `remove_unreachable`. The loop
terminates because every iteration pops one stack entry and a state is
expanded at most once; the fuel is the standard potential (stack length
plus the weights of the unvisited universe) at the initial state, which
dominates the number of iterations of the Python loop. -/
def Automaton.reachableFromInitial (A : Automaton) (init : String) : List String :=
  reachGo A (bfsBudget A init [] + 1) [] [init]

/-- `remove_unreachable()`: the in-place filtering of states, their
transition entries, and accept marks; alphabet and initial are untouched.
Returns the mutated automaton value. -/
def Automaton.removeUnreachable (A : Automaton) : Automaton :=
  match A.initial with
  | none => A
  | some init =>
    let reach := A.reachableFromInitial init
    { A with
      states := A.states.filter (fun s => s ∈ reach)
      transitions := A.transitions.filter (fun e => e.1 ∈ reach)
      accepts := A.accepts.filter (fun s => s ∈ reach) }

/-! ## Hopcroft minimization (hopcroft.py) -/

/-- `target(src, sym)`: the unique destination, if exactly one. -/
def Automaton.target (A : Automaton) (src : String) (sym : Char) : Option String :=
  match A.getTransitions src sym with
  | [t] => some t
  | _ => none

/-- Remove one occurrence of a block from the worklist (Python
`list.remove`; worklist blocks are pairwise distinct sets, so which
occurrence is removed is immaterial). -/
def removeElem (Y : List String) : List (List String) → List (List String)
  | [] => []
  | Z :: rest => if Z = Y then rest else Z :: removeElem Y rest

/-- Refine the partition and worklist with the preimage of block `Ablk`
under `sym`. The worklist is stored top-first (Python appends to and pops
from the end of its list). -/
def hopSplit (dfa : Automaton) (Q : List String) (Ablk : List String) (sym : Char)
    (PW : List (List String) × List (List String)) :
    List (List String) × List (List String) :=
  let X := Q.filter (fun q =>
    match dfa.target q sym with
    | some t => t ∈ Ablk
    | none => false)
  if X.isEmpty then PW
  else
    PW.1.foldl
      (fun acc Y =>
        let inter := Y.filter (fun y => y ∈ X)
        let dif := Y.filter (fun y => y ∉ X)
        if !inter.isEmpty && !dif.isEmpty then
          let W2 :=
            if Y ∈ acc.2 then dif :: inter :: removeElem Y acc.2
            else if inter.length ≤ dif.length then inter :: acc.2
            else dif :: acc.2
          (acc.1 ++ [inter, dif], W2)
        else (acc.1 ++ [Y], acc.2))
      ([], PW.2)

/-- The refinement loop: pop the top worklist block, refine with its
preimage under every alphabet symbol in sorted order. Every split grows
the partition, whose blocks are pairwise disjoint subsets of `Q` with at
most one empty block, so splits are bounded by `|Q|` and worklist pushes
by `1 + 2|Q|`; the fuel below dominates the Python loop. -/
def hopLoop (dfa : Automaton) (Q : List String) :
    Nat → List (List String) → List (List String) → List (List String)
  | 0, P, _ => P
  | _ + 1, P, [] => P
  | fuel + 1, P, Ablk :: W =>
    let PW := dfa.alphabet.foldl (fun pw sym => hopSplit dfa Q Ablk sym pw) (P, W)
    hopLoop dfa Q fuel PW.1 PW.2

/-- Naming of one block: a singleton keeps its state name, a merged block
takes the next fresh `m<count>` name. -/
def blockName (block : List String) (mcount : Nat) : String × Nat :=
  match block with
  | [s] => (s, mcount)
  | _ => (tagName 'm' mcount, mcount + 1)

/-- Name every block of the final partition in order. -/
def nameBlocks : List (List String) → Nat → List (List String × String)
  | [], _ => []
  | b :: rest, mc =>
    let (nm, mc2) := blockName b mc
    (b, nm) :: nameBlocks rest mc2

/-- `rep_map[s]`: the name of the block containing `s` (blocks are
disjoint, so the first hit is the only one; every state of `Q` lies in a
block, so the default is never produced for the keys actually used). -/
def repOf (named : List (List String × String)) (s : String) : String :=
  match named.find? (fun bn => s ∈ bn.1) with
  | some bn => bn.2
  | none => ""

/-- `minimize_hopcroft(dfa)`. The result pairs the mutated input (after
`remove_unreachable`) with the freshly built minimal automaton. -/
def minimizeHopcroft (dfa : Automaton) : Except Err (Automaton × Automaton) :=
  if !dfa.isDeterministic then .error .notADFA
  else
    match dfa.initial with
    | none => .error .noInitial
    | some init =>
      let dfa2 := dfa.removeUnreachable
      let F := dfa2.accepts
      let Q := dfa2.states
      let NF := Q.filter (fun s => s ∉ F)
      let P0 := if NF.isEmpty then [F] else [F, NF]
      let P := hopLoop dfa2 Q (2 * Q.length + 3) P0 [F]
      let named := nameBlocks P 0
      let minDfa := named.foldl
        (fun m bn =>
          m.addState bn.2 (bn.1.any (fun s => s ∈ F)) (decide (init ∈ bn.1)))
        Automaton.empty
      let minDfa := dfa2.transitions.foldl
        (fun m e =>
          e.2.foldl
            (fun m2 b =>
              match b.2 with
              | [d] => m2.addTransition (repOf named e.1) b.1 (repOf named d)
              | _ => m2)
            m)
        minDfa
      .ok (dfa2, minDfa)

/-! ## Parser (parser.py `to_postfix` and its passes) -/

/-- Opening curly brace character. -/
def lbrace : Char := Char.ofNat 123

/-- Closing curly brace character. -/
def rbrace : Char := Char.ofNat 125

/-- `VALID_ESCAPE_CHARS`. -/
def validEscapeChars : List Char :=
  ['n', 't', 'r', '\\', '(', ')', '[', ']', lbrace, rbrace,
   '|', '*', '+', '?', '.', '^', '$']

/-- The bracket and brace balance scan of `validate_regex`; counters are
integers because the negative check fires immediately after a decrement. -/
def validateScan : List Char → Int → Int → Int → Except Err (Int × Int × Int)
  | [], pc, bc, cc => .ok (pc, bc, cc)
  | c :: rest, pc, bc, cc =>
    if c = '\\' then
      match rest with
      | [] => .error .invalidRegex
      | c2 :: rest2 =>
        if c2 ∈ validEscapeChars then validateScan rest2 pc bc cc
        else .error .invalidRegex
    else if c = '(' then validateScan rest (pc + 1) bc cc
    else if c = ')' then
      if pc - 1 < 0 then .error .invalidRegex
      else validateScan rest (pc - 1) bc cc
    else if c = '[' then validateScan rest pc (bc + 1) cc
    else if c = ']' then
      if bc - 1 < 0 then .error .invalidRegex
      else validateScan rest pc (bc - 1) cc
    else if c = lbrace then validateScan rest pc bc (cc + 1)
    else if c = rbrace then
      if cc - 1 < 0 then .error .invalidRegex
      else validateScan rest pc bc (cc - 1)
    else validateScan rest pc bc cc

/-- `_remove_escapes`: replace every escape pair by the placeholder `a`. -/
def removeEscapes : List Char → List Char
  | '\\' :: _ :: rest => 'a' :: removeEscapes rest
  | c :: rest => c :: removeEscapes rest
  | [] => []

/-- `_validate_operators`, carrying the previous character and peeking at
the next one. -/
def validateOps : Option Char → List Char → Except Err Unit
  | _, [] => .ok ()
  | prev, c :: rest =>
    if c = '*' ∨ c = '+' ∨ c = '?' then
      match prev with
      | none => .error .invalidRegex
      | some p =>
        if p = '|' ∨ p = '(' then .error .invalidRegex
        else if p = '*' ∨ p = '+' ∨ p = '?' then .error .invalidRegex
        else validateOps (some c) rest
    else if c = '|' then
      match prev with
      | none => .error .invalidRegex
      | some p =>
        match rest with
        | [] => .error .invalidRegex
        | nx :: _ =>
          if p = '|' ∨ p = '(' then .error .invalidRegex
          else if nx = '|' ∨ nx = ')' then .error .invalidRegex
          else validateOps (some c) rest
    else validateOps (some c) rest

/-- `validate_regex`. -/
def validateRegex (regex : List Char) : Except Err Unit := do
  if regex.isEmpty then throw .invalidRegex
  if 1000 < regex.length then throw .invalidRegex
  match validateScan regex 0 0 0 with
  | .error e => throw e
  | .ok (pc, bc, cc) =>
    if pc ≠ 0 then throw .invalidRegex
    else if bc ≠ 0 then throw .invalidRegex
    else if cc ≠ 0 then throw .invalidRegex
    else validateOps none (removeEscapes regex)

/-- Scan for the closing `]` of a character class, skipping over escape
pairs, returning the class content and the remainder. -/
def classClose : List Char → Option (List Char × List Char)
  | [] => none
  | ']' :: rest => some ([], rest)
  | '\\' :: c :: rest => (classClose rest).map (fun p => ('\\' :: c :: p.1, p.2))
  | c :: rest => (classClose rest).map (fun p => (c :: p.1, p.2))

theorem classClose_len (l : List Char) :
    ∀ content rest, classClose l = some (content, rest) → rest.length < l.length := by
  induction l using classClose.induct with
  | case1 =>
    intro content rest h
    simp [classClose] at h
  | case2 r =>
    intro content rest h
    simp only [classClose, Option.some.injEq, Prod.mk.injEq] at h
    obtain ⟨h1, h2⟩ := h
    subst h2
    simp
  | case3 c r ih =>
    intro content rest h
    simp only [classClose, Option.map_eq_some'] at h
    obtain ⟨p, hp, heq⟩ := h
    have h2 : p.2 = rest := congrArg Prod.snd heq
    have := ih p.1 p.2 (by simpa using hp)
    subst h2
    simp only [List.length_cons]
    omega
  | case4 c r h1 h2 ih =>
    intro content rest h
    simp only [classClose, Option.map_eq_some'] at h
    obtain ⟨p, hp, heq⟩ := h
    have h3 : p.2 = rest := congrArg Prod.snd heq
    have := ih p.1 p.2 (by simpa using hp)
    subst h3
    simp only [List.length_cons]
    omega

/-- Intersperse the alternation bar (`'|'.join`). -/
def interBar : List Char → List Char
  | [] => []
  | [c] => [c]
  | c :: rest => c :: '|' :: interBar rest

/-- Character collection of `_expand_char_class`: escapes, ranges by code
point (a descending range is an error), single characters; the set is
canonical, matching the `sorted(chars)` of the join. -/
def classChars : List Char → List Char → Except Err (List Char)
  | acc, [] => .ok acc
  | acc, '\\' :: c :: rest =>
    let ch :=
      if c = 'n' then '\n' else if c = 't' then '\t'
      else if c = 'r' then '\r' else c
    classChars (insC ch acc) rest
  | acc, a :: '-' :: b :: rest =>
    if b.toNat < a.toNat then .error .invalidRegex
    else
      let acc2 := (List.range (b.toNat + 1 - a.toNat)).foldl
        (fun ac k => insC (Char.ofNat (a.toNat + k)) ac) acc
      classChars acc2 rest
  | acc, c :: rest => classChars (insC c acc) rest

/-- The scan loop of `expand_character_classes`; structural on a fuel
that dominates the remaining length (every recursive call consumes at
least one character, by `classClose_len`), so the fuel-exhaustion branch
is unreachable from `expandClasses`. -/
def expandClassesGo : Nat → List Char → Except Err (List Char)
  | 0, _ => .ok []
  | _ + 1, [] => .ok []
  | fuel + 1, '\\' :: c :: rest =>
    (expandClassesGo fuel rest).map (fun r => '\\' :: c :: r)
  | fuel + 1, '[' :: rest =>
    (match classClose rest with
    | none => .error .invalidRegex
    | some (content, rest2) => do
      if content.isEmpty then throw Err.invalidRegex
      let chars ← classChars [] content
      if chars.isEmpty then throw Err.invalidRegex
      let r ← expandClassesGo fuel rest2
      pure (('(' :: interBar chars) ++ (')' :: r)))
  | fuel + 1, c :: rest => (expandClassesGo fuel rest).map (fun r => c :: r)

/-- `expand_character_classes`. -/
def expandClasses (l : List Char) : Except Err (List Char) :=
  expandClassesGo (l.length + 1) l

/-- Scan for the first closing brace of a quantifier (no escape skipping
in this scan), returning the quantifier text and the remainder. -/
def braceClose : List Char → Option (List Char × List Char)
  | [] => none
  | c :: rest =>
    if c = rbrace then some ([], rest)
    else (braceClose rest).map (fun p => (c :: p.1, p.2))

theorem braceClose_len (l : List Char) :
    ∀ content rest, braceClose l = some (content, rest) → rest.length < l.length := by
  induction l with
  | nil =>
    intro content rest h
    simp [braceClose] at h
  | cons c cs ih =>
    intro content rest h
    simp only [braceClose] at h
    split at h
    · simp only [Option.some.injEq, Prod.mk.injEq] at h
      obtain ⟨h1, h2⟩ := h
      subst h2
      simp
    · simp only [Option.map_eq_some'] at h
      obtain ⟨p, hp, heq⟩ := h
      have h2 : p.2 = rest := congrArg Prod.snd heq
      have := ih p.1 p.2 hp
      subst h2
      simp only [List.length_cons]
      omega

/-- Parse a run of decimal digits (Python `int` on the quantifier parts;
a sign or other character raises, as does the empty string). -/
def parseNatDigits (l : List Char) : Option Nat :=
  if l.isEmpty then none
  else if l.all (fun c => c.isDigit) then some (digitsVal 0 l)
  else none

/-- Split a quantifier body at every comma. -/
def splitComma : List Char → List (List Char)
  | [] => [[]]
  | c :: rest =>
    let r := splitComma rest
    if c = ',' then [] :: r
    else
      match r with
      | seg :: segs => (c :: seg) :: segs
      | [] => [[c]]

/-- The right-to-left paren scan of `_expand_quantifier` for a group
atom: walk the reversed element list with a balance counter, consuming up
to and including the matching opening paren. Returns the group in source
order and the reversed remainder. -/
def grpGo : List (List Char) → Int → List (List Char) →
    List (List Char) × List (List Char)
  | [], _, acc => (acc, [])
  | e :: rest, pc, acc =>
    let pc2 := if e = [')'] then pc + 1 else if e = ['('] then pc - 1 else pc
    if pc2 ≤ 0 then (e :: acc, rest)
    else grpGo rest pc2 (e :: acc)

/-- `_expand_quantifier`: the element list uses one entry per source
token (escape pairs and rewritten groups stay single entries), matching
the Python list of strings. -/
def expandQuantifier (preceding : List (List Char)) (q : List Char) :
    Except Err (List (List Char)) := do
  let (minRep, maxRep) ←
    if q.contains ',' then
      match splitComma q with
      | [p0, p1] => do
        let mn ←
          if p0.isEmpty then pure 0
          else
            match parseNatDigits p0 with
            | some n => pure n
            | none => throw Err.invalidRegex
        let mx ←
          if p1.isEmpty then pure (mn + 5)
          else
            match parseNatDigits p1 with
            | some n => pure n
            | none => throw Err.invalidRegex
        pure (mn, mx)
      | _ => throw Err.invalidRegex
    else
      match parseNatDigits q with
      | some n => pure (n, n)
      | none => throw Err.invalidRegex
  if maxRep < minRep then throw Err.invalidRegex
  if 20 < maxRep then throw Err.invalidRegex
  let (element, res) :=
    match preceding.reverse with
    | lastE :: revRest =>
      if lastE = [')'] then
        let (grp, revRes) := grpGo revRest 1 [[')']]
        (grp.flatten, revRes.reverse)
      else (lastE, preceding.dropLast)
    | [] => ([], [])
  if minRep = maxRep then
    pure (res ++ List.replicate minRep element)
  else
    pure (res ++ List.replicate minRep element ++
      List.replicate (maxRep - minRep) (('(' :: element) ++ [')', '?']))

/-- The scan loop of `expand_quantifiers`; structural on a fuel that
dominates the remaining length (every recursive call consumes at least
one character, by `braceClose_len`), so the fuel-exhaustion branch is
unreachable from `expandQuantifiers`. -/
def expandQuantGo : Nat → List (List Char) → List Char → Except Err (List (List Char))
  | 0, res, _ => .ok res
  | _ + 1, res, [] => .ok res
  | fuel + 1, res, '\\' :: c :: rest => expandQuantGo fuel (res ++ [['\\', c]]) rest
  | fuel + 1, res, c :: rest =>
    if c = lbrace then
      if res.isEmpty then .error .invalidRegex
      else
        match braceClose rest with
        | none => .error .invalidRegex
        | some (q, rest2) => do
          let res2 ← expandQuantifier res q
          expandQuantGo fuel res2 rest2
    else expandQuantGo fuel (res ++ [[c]]) rest

/-- `expand_quantifiers`. -/
def expandQuantifiers (regex : List Char) : Except Err (List Char) :=
  (expandQuantGo (regex.length + 1) [] regex).map List.flatten

/-- `string.ascii_letters + string.digits`, in Python order. -/
def asciiLettersDigits : List Char :=
  ((List.range 26).map (fun k => Char.ofNat (97 + k))) ++
    ((List.range 26).map (fun k => Char.ofNat (65 + k))) ++
    ((List.range 10).map (fun k => Char.ofNat (48 + k)))

/-- Expansion of the wildcard dot. -/
def wildcardAlt : List Char :=
  ('(' :: interBar asciiLettersDigits) ++ [')']

/-- `process_special_chars`. -/
def processSpecial : List Char → List Char
  | [] => []
  | '\\' :: c :: rest =>
    let ch :=
      if c = 'n' then '\n' else if c = 't' then '\t'
      else if c = 'r' then '\r' else c
    ch :: processSpecial rest
  | '.' :: rest => wildcardAlt ++ processSpecial rest
  | c :: rest => c :: processSpecial rest

/-- The character whitelist applied after desugaring (`isalnum` is
ASCII-only here; the sole non-ASCII symbol in scope, ε, is whitelisted
explicitly exactly as in the source). -/
def validChar (c : Char) : Bool :=
  c.isAlphanum || c ∈ ("|*+?()εe \n\t\r\\".data)

/-- Implicit-concatenation insertion over the token list. -/
def augmentGo : List Char → List Char
  | [] => []
  | [t] => [t]
  | a :: b :: rest =>
    let dot :=
      ((a ∉ ['|', '(', ')', '*', '+', '?']) && (b ∉ ['|', ')', '*', '+', '?'])) ||
        ((a ∈ ['*', '+', '?', ')']) && (b ∉ ['|', ')', '*', '+', '?']))
    if dot then a :: '.' :: augmentGo (b :: rest)
    else a :: augmentGo (b :: rest)

/-- `PRECEDENCE`. -/
def prec (c : Char) : Nat :=
  if c = '|' then 1 else if c = '.' then 2 else 3

/-- Operator test against the precedence table. -/
def isOpChar (c : Char) : Bool :=
  c = '|' || c = '.' || c = '*' || c = '+' || c = '?'

/-- Pop operators bound more tightly than the incoming one (equal
precedence pops only for the left-associative `|` and `.`). -/
def popOps (t : Char) : List Char → List Char × List Char
  | [] => ([], [])
  | s :: rest =>
    if s ≠ '(' ∧ (prec t < prec s ∨ (prec s = prec t ∧ (t = '|' ∨ t = '.'))) then
      let (p, r) := popOps t rest
      (s :: p, r)
    else ([], s :: rest)

/-- Pop up to and over the matching opening paren for a closing paren. -/
def popParen : List Char → Option (List Char × List Char)
  | [] => none
  | '(' :: rest => some ([], rest)
  | s :: rest => (popParen rest).map (fun p => (s :: p.1, p.2))

/-- Final stack drain; a leftover paren is unbalanced. -/
def drainStack : List Char → Except Err (List Char)
  | [] => .ok []
  | s :: rest =>
    if s = '(' ∨ s = ')' then .error .invalidRegex
    else (drainStack rest).map (fun r => s :: r)

/-- The shunting-yard loop (`#paso 8`); ε and its `e` alias are
normalized to ε when emitted. -/
def shuntGo : List Char → List Char → List Char → Except Err (List Char)
  | [], out, stack => (drainStack stack).map (fun r => out ++ r)
  | t :: rest, out, stack =>
    if t = '(' then shuntGo rest out ('(' :: stack)
    else if t = ')' then
      match popParen stack with
      | none => .error .invalidRegex
      | some (p, stack2) => shuntGo rest (out ++ p) stack2
    else if isOpChar t then
      let (p, stack2) := popOps t stack
      shuntGo rest (out ++ p) (t :: stack2)
    else
      let o := if t = 'ε' ∨ t = 'e' then 'ε' else t
      shuntGo rest (out ++ [o]) stack

/-- `to_postfix(regex)`: validation, class expansion, quantifier
expansion, special-character processing, character whitelist, space
removal, one-character tokenization, implicit-concat insertion,
shunting yard, and the final emptiness check. -/
def toPostfix (regex : List Char) : Except Err (List Char) := do
  if regex.isEmpty then throw Err.invalidRegex
  validateRegex regex
  let r1 ← expandClasses regex
  let r2 ← expandQuantifiers r1
  let r3 := processSpecial r2
  if !(r3.all validChar) then throw Err.invalidRegex
  let toks := r3.filter (fun c => c ≠ ' ')
  let aug := augmentGo toks
  let out ← shuntGo aug [] []
  if out.isEmpty then throw Err.invalidRegex
  pure out

/-- The driver composition of `main.process_regex`: parse to postfix,
Thompson construction, subset construction, Hopcroft minimization. -/
def pipeline (r : List Char) : Except Err (Automaton × Automaton × Automaton) := do
  let pf ← toPostfix r
  let nfa ← postfixToNfa pf
  let dfa ← nfa.determinize
  let pair ← minimizeHopcroft dfa
  pure (nfa, dfa, pair.2)

/-- Modelled from the spec: the `?` construction rule of the Thompson
table (section 4.2), which is absent from thompson.py. Pop one fragment
A, create fresh states s₀ and s₁, add epsilon edges s₀ → entry(A),
s₀ → s₁, and exit(A) → s₁ for every exit; entry s₀, exit {s₁}. Every
other token is handled exactly by the source step. -/
def specThompsonStep (st : List Fragment × Nat × Automaton) (c : Char) :
    Except Err (List Fragment × Nat × Automaton) :=
  if c = '?' then
    let (stack, counter, nfa) := st
    match stack with
    | [] => .error .popEmpty
    | frag :: rest =>
      let start := newState counter
      let stop := newState (counter + 1)
      let nfa := (nfa.addState start false false).addState stop false false
      let nfa := (nfa.addTransition start epsChar frag.start).addTransition
        start epsChar stop
      let nfa := frag.accepts.foldl
        (fun m a => m.addTransition a epsChar stop) nfa
      .ok (⟨start, [stop]⟩ :: rest, counter + 2, nfa)
  else thompsonStep st c

/-- Modelled from the spec: `postfix_to_nfa` as the spec intends it, the
source construction extended with the `?` rule above. -/
def specPostfixToNfa (pf : List Char) : Except Err Automaton := do
  let (stack, _, nfa) ← pf.foldlM specThompsonStep ([], 0, Automaton.empty)
  match stack with
  | [frag] =>
    pure
      { nfa with
        initial := some frag.start
        accepts := frag.accepts.foldl (fun acc a => insS a acc) nfa.accepts }
  | _ => .error .malformedPostfix

/-! ## Concrete automata used as claim inputs and counterexamples -/

/-- A one-state DFA with a self loop and no accepting state (language ∅). -/
def c4dfa : Automaton :=
  (Automaton.empty.addState "s0" false true).addTransition "s0" 'a' "s0"

/-- A DFA with accepting initial state `p` and an unreachable state `u`. -/
def c3aut : Automaton :=
  (((Automaton.empty.addState "p" true true).addState "u" false false).addTransition
    "u" 'a' "p")

/-- A one-state DFA over alphabet `{a}` accepting `a*`. -/
def c5dfa : Automaton :=
  (Automaton.empty.addState "s0" true true).addTransition "s0" 'a' "s0"

/-- An already deterministic automaton whose single state has a name
outside the `q` scheme. -/
def c9aut : Automaton :=
  Automaton.empty.addState "x" false true

/-- A five-state partial DFA on which Hopcroft minimization is not
idempotent: accepting states s0 and s2, transitions
s0 ─a→ s4, s1 ─a→ s2, s2 ─a→ s1, s2 ─b→ s3, s4 ─a→ s2. -/
def c8dfa : Automaton :=
  (((((((((Automaton.empty.addState "s0" true true).addState
    "s1" false false).addState
    "s2" true false).addState
    "s3" false false).addState
    "s4" false false).addTransition "s0" 'a' "s4").addTransition
    "s1" 'a' "s2").addTransition "s2" 'a' "s1").addTransition
    "s2" 'b' "s3").addTransition "s4" 'a' "s2"

/-! ## Claim theorems: concrete pipeline evaluations -/

deriving instance DecidableEq for Except

/-- C1: the claim says the pipeline succeeds on `a?b` and that
`postfix_to_nfa` implements the `?` rule. On the source, `to_postfix`
does produce the postfix `a?b.`, but thompson.py has no `?` case: the
token is treated as a literal symbol, the final stack holds two
fragments, and the construction raises. Under the spec `?` rule
(`specPostfixToNfa`) the same postfix yields an NFA that accepts exactly
`b` and `ab` among the listed strings, with the claimed wiring
s₀ ─ε→ entry(A), s₀ ─ε→ s₁, exit(A) ─ε→ s₁ (here s₀ = s2, s₁ = s3,
entry(A) = s0, exit(A) = {s1}): the claim describes the intent and the
code is missing the case. -/
theorem c1_qmark_case_missing :
    toPostfix ("a?b".data) = .ok ("a?b.".data) ∧
    postfixToNfa ("a?b.".data) = .error Err.malformedPostfix ∧
    (specPostfixToNfa ("a?b.".data)).map
        (fun n =>
          (n.simulateNfa ("b".data), n.simulateNfa ("ab".data),
           n.simulateNfa ("".data), n.simulateNfa ("aab".data),
           n.simulateNfa ("aa".data)))
      = .ok (.ok true, .ok true, .ok false, .ok false, .ok false) ∧
    (specPostfixToNfa ("a?b.".data)).map
        (fun n => (n.getTransitions "s2" epsChar, n.getTransitions "s1" epsChar))
      = .ok (["s0", "s3"], ["s3"]) := by
  refine ⟨by decide, by decide, by decide, by decide⟩

/-- C2: the three stages are claimed to agree on every string over the
alphabet. For the regex `a*|ba` (postfix `a*ba.|`) and the input `aba`,
the Thompson NFA and the subset-construction DFA both reject, but the
Hopcroft-minimized DFA accepts: minimization merged inequivalent states
of a partial DFA (its worklist starts with only the accepting block). -/
theorem c2_stages_disagree_on_aba :
    (pipeline ("a*|ba".data)).map
        (fun t =>
          (t.1.simulateNfa ("aba".data),
           (t.2.1.simulateDfaPath ("aba".data)).map Prod.snd,
           (t.2.2.simulateDfaPath ("aba".data)).map Prod.snd))
      = .ok (.ok false, .ok false, .ok true) := by
  decide

/-- C4: for a DFA with no accepting states the claim demands one state
and no transitions. The code keeps the empty accepting block in the
partition, which becomes a phantom state `m0`, and copies every
transition through the representative map: on the one-state DFA `c4dfa`
the result has the two states `m0` and `s0` and keeps the self loop. -/
theorem c4_empty_language_phantom_state :
    (minimizeHopcroft c4dfa).map
        (fun p => (p.2.states, p.2.accepts, p.2.getTransitions "s0" 'a'))
      = .ok (["m0", "s0"], [], ["s0"]) := by
  decide

/-- C7: the pipeline on `a+` yields a minimal DFA accepting `a`, `aa`,
`aaa` and rejecting the empty string and `b`; in the Thompson NFA the
new start state s2 of the `+` fragment has epsilon successors `[s0]`
only, i.e. no epsilon edge to the new end state s3 (one pass through the
operand is mandatory). -/
theorem c7_plus_requires_one_pass :
    (pipeline ("a+".data)).map
        (fun t =>
          ((t.2.2.simulateDfaPath ("a".data)).map Prod.snd,
           (t.2.2.simulateDfaPath ("aa".data)).map Prod.snd,
           (t.2.2.simulateDfaPath ("aaa".data)).map Prod.snd,
           (t.2.2.simulateDfaPath ("".data)).map Prod.snd,
           (t.2.2.simulateDfaPath ("b".data)).map Prod.snd))
      = .ok (.ok true, .ok true, .ok true, .ok false, .ok false) ∧
    (pipeline ("a+".data)).map (fun t => t.1.getTransitions "s2" epsChar)
      = .ok ["s0"] := by
  refine ⟨by decide, by decide⟩

/-- C8: minimization is claimed idempotent up to renaming. On the
five-state DFA `c8dfa` the first minimization yields four states, the
second yields two (a merged block takes the fresh name `m0` which
collides with the state already named `m0`); the first result rejects
`a` while the second accepts it, so the language differs as well. -/
theorem c8_minimize_not_idempotent :
    (minimizeHopcroft c8dfa).bind
        (fun p =>
          (minimizeHopcroft p.2).map
            (fun q =>
              (p.2.states.length, q.2.states.length,
               (p.2.simulateDfaPath ("a".data)).map Prod.snd,
               (q.2.simulateDfaPath ("a".data)).map Prod.snd)))
      = .ok (4, 2, .ok false, .ok true) := by
  decide

/-- C10: `to_postfix` silently treats `a{2,}` as `a{2,7}`, expanding to
two mandatory copies and five optional copies, but the resulting postfix
contains `?` tokens that thompson.py treats as literals, so the pipeline
raises instead of accepting two to seven repetitions; under the spec
`?` rule the expansion accepts exactly `a^k` for `2 ≤ k ≤ 7`. -/
theorem c10_open_upper_bound_quantifier :
    toPostfix ("a\x7b2,\x7d".data) = .ok ("aa.a?.a?.a?.a?.a?.".data) ∧
    postfixToNfa ("aa.a?.a?.a?.a?.a?.".data) = .error Err.malformedPostfix ∧
    (specPostfixToNfa ("aa.a?.a?.a?.a?.a?.".data)).map
        (fun n => (List.range 9).map (fun k => n.simulateNfa (List.replicate k 'a')))
      = .ok [.ok false, .ok false, .ok true, .ok true, .ok true, .ok true,
          .ok true, .ok true, .ok false] := by
  refine ⟨by decide, by decide, by decide⟩

/-- C3 counterexample: `minimize_hopcroft` mutates its input. On the
two-state DFA `c3aut` with unreachable state `u`, the input object after
the call has lost `u` from its state set (and its transition entry),
contradicting the claim that states and transitions are unchanged. -/
theorem c3_minimize_mutates_input :
    (minimizeHopcroft c3aut).map
        (fun p => (p.1.states, p.1.transitions.map Prod.fst))
      = .ok (["p"], ["p"]) ∧
    c3aut.states = ["p", "u"] := by
  refine ⟨by decide, by decide⟩

/-- C5 counterexample: on the DFA `c5dfa` with alphabet `{a}` and the
input `b`, whose symbol is outside the alphabet, the simulator does not
raise any error: it returns the one-state path with accepted false
(there is no UnknownSymbol error kind anywhere in the simulator). -/
theorem c5_unknown_symbol_does_not_raise :
    c5dfa.simulateDfaPath ("b".data) = .ok (["s0"], false) ∧
    'b' ∉ c5dfa.alphabet := by
  refine ⟨by decide, by decide⟩

/-- C9 counterexample: `determinize` on an already deterministic input
returns the input itself, so the resulting states are not named
`q0, q1, …`: `c9aut` keeps its single state `x`. -/
theorem c9_deterministic_input_keeps_names :
    c9aut.determinize = .ok c9aut ∧
    c9aut.states = ["x"] ∧ "q0" ∉ c9aut.states := by
  refine ⟨by decide, by decide, by decide⟩

/-! ## The simulator on inputs it cannot fully consume (C5, C6) -/

/-- Specification-side visited path: the states reached by following the
unique transitions from `cur`, cut off at the first symbol without a
unique transition. -/
def dfaTrace (A : Automaton) (cur : String) : List Char → List String
  | [] => [cur]
  | c :: cs =>
    match A.getTransitions cur c with
    | [d] => cur :: dfaTrace A d cs
    | _ => [cur]

/-- Whether every input symbol has a unique transition along the run. -/
def dfaConsumes (A : Automaton) (cur : String) : List Char → Bool
  | [] => true
  | c :: cs =>
    match A.getTransitions cur c with
    | [d] => dfaConsumes A d cs
    | _ => false

theorem dfaGo_of_not_consumes (A : Automaton) :
    ∀ (cs : List Char) (cur : String), dfaConsumes A cur cs = false →
      dfaGo A cur cs = (dfaTrace A cur cs, false) := by
  intro cs
  induction cs with
  | nil =>
    intro cur h
    simp [dfaConsumes] at h
  | cons c cs ih =>
    intro cur h
    simp only [dfaConsumes] at h
    simp only [dfaGo, dfaTrace]
    generalize hm : A.getTransitions cur c = ts at h ⊢
    rcases ts with _ | ⟨d, ds⟩
    · rfl
    · rcases ds with _ | ⟨e, es⟩
      · have h2 : dfaConsumes A d cs = false := h
        show (cur :: (dfaGo A d cs).1, (dfaGo A d cs).2)
          = (cur :: dfaTrace A d cs, false)
        rw [ih d h2]
      · rfl

/-- The shared conclusion for C5 and C6: a deterministic automaton with
an initial state returns the partial path and False on any input it
cannot fully consume, raising nothing. -/
theorem simulate_stuck (A : Automaton) (i : String) (cs : List Char)
    (hdet : A.isDeterministic = true) (hinit : A.initial = some i)
    (hstuck : dfaConsumes A i cs = false) :
    A.simulateDfaPath cs = .ok (dfaTrace A i cs, false) := by
  unfold Automaton.simulateDfaPath
  rw [hdet, hinit]
  simp only [Bool.not_true, Bool.false_eq_true, if_false]
  rw [dfaGo_of_not_consumes A cs i hstuck]

theorem alookup_mem {β : Type} (k : String) (l : List (String × β)) (v : β)
    (h : alookup k l = some v) : (k, v) ∈ l := by
  induction l with
  | nil => simp [alookup] at h
  | cons e rest ih =>
    rw [show e = (e.1, e.2) from rfl] at h ⊢
    simp only [alookup] at h
    split at h
    next heq =>
      cases h
      subst heq
      exact List.mem_cons_self _ _
    next heq =>
      exact List.mem_cons_of_mem _ (ih h)

theorem clookup_mem {β : Type} (k : Char) (l : List (Char × β)) (v : β)
    (h : clookup k l = some v) : (k, v) ∈ l := by
  induction l with
  | nil => simp [clookup] at h
  | cons e rest ih =>
    rw [show e = (e.1, e.2) from rfl] at h ⊢
    simp only [clookup] at h
    split at h
    next heq =>
      cases h
      subst heq
      exact List.mem_cons_self _ _
    next heq =>
      exact List.mem_cons_of_mem _ (ih h)

/-- Any symbol with a nonempty transition bucket somewhere lies in the
alphabet, under the data-model invariant relating the table to the
alphabet. -/
theorem getTransitions_mem_alphabet (A : Automaton)
    (hclosed : ∀ e ∈ A.transitions, ∀ b ∈ e.2, b.2 ≠ [] → b.1 ∈ A.alphabet)
    (s : String) (c : Char) (h : A.getTransitions s c ≠ []) : c ∈ A.alphabet := by
  unfold Automaton.getTransitions at h
  rcases ha : alookup s A.transitions with _ | buckets
  · rw [ha] at h
    simp [clookup] at h
  · rw [ha] at h
    simp only [Option.getD_some] at h
    rcases hc : clookup c buckets with _ | ds
    · rw [hc] at h
      simp at h
    · rw [hc] at h
      exact hclosed (s, buckets) (alookup_mem s A.transitions buckets ha)
        (c, ds) (clookup_mem c buckets ds hc) (by simpa using h)

theorem consumes_false_of_bad_symbol (A : Automaton)
    (hclosed : ∀ e ∈ A.transitions, ∀ b ∈ e.2, b.2 ≠ [] → b.1 ∈ A.alphabet) :
    ∀ (cs : List Char) (cur : String), (∃ c ∈ cs, c ∉ A.alphabet) →
      dfaConsumes A cur cs = false := by
  intro cs
  induction cs with
  | nil =>
    rintro cur ⟨c, hc, _⟩
    simp at hc
  | cons c cs ih =>
    rintro cur ⟨c2, hc2, hbad⟩
    simp only [dfaConsumes]
    generalize hm : A.getTransitions cur c = ts
    rcases ts with _ | ⟨d, ds⟩
    · rfl
    · rcases ds with _ | ⟨e, es⟩
      · show dfaConsumes A d cs = false
        rcases List.mem_cons.mp hc2 with rfl | h2
        · exact absurd
            (getTransitions_mem_alphabet A hclosed cur c2 (by rw [hm]; simp)) hbad
        · exact ih d ⟨c2, h2, hbad⟩
      · rfl

/-- C6: for every DFA with an initial state and every input with a
missing transition at some position, `simulate_dfa_path` does not raise:
it returns the path of the states visited so far, starting at the
initial state, paired with accepted = false. -/
theorem c6_missing_transition_partial_path (A : Automaton) (i : String)
    (cs : List Char) (hdet : A.isDeterministic = true)
    (hinit : A.initial = some i) (hstuck : dfaConsumes A i cs = false) :
    A.simulateDfaPath cs = .ok (dfaTrace A i cs, false) :=
  simulate_stuck A i cs hdet hinit hstuck

/-- Witness for C6 at a concrete input: on the `a*` DFA `c5dfa` the
input `ab` gets stuck at `b` and the simulator returns the partial path
with accepted false. -/
theorem c6_witness :
    c5dfa.isDeterministic = true ∧ c5dfa.initial = some "s0" ∧
    dfaConsumes c5dfa "s0" ("ab".data) = false ∧
    c5dfa.simulateDfaPath ("ab".data) = .ok (dfaTrace c5dfa "s0" ("ab".data), false) :=
  ⟨by decide, by decide, by decide,
    c6_missing_transition_partial_path c5dfa "s0" ("ab".data)
      (by decide) (by decide) (by decide)⟩

/-- C5 amended: the simulator raises no error on a symbol outside the
alphabet; for every DFA with an initial state whose transition table
only uses alphabet symbols, an input containing a symbol outside the
alphabet yields the partial path so far and accepted = false. -/
theorem c5_amended_returns_false (A : Automaton) (i : String) (cs : List Char)
    (hdet : A.isDeterministic = true) (hinit : A.initial = some i)
    (hclosed : ∀ e ∈ A.transitions, ∀ b ∈ e.2, b.2 ≠ [] → b.1 ∈ A.alphabet)
    (hbad : ∃ c ∈ cs, c ∉ A.alphabet) :
    A.simulateDfaPath cs = .ok (dfaTrace A i cs, false) :=
  simulate_stuck A i cs hdet hinit
    (consumes_false_of_bad_symbol A hclosed cs i hbad)

/-- Witness for the amended C5 at a concrete input. -/
theorem c5_amended_witness :
    c5dfa.simulateDfaPath ("b".data) = .ok (dfaTrace c5dfa "s0" ("b".data), false) :=
  c5_amended_returns_false c5dfa "s0" ("b".data) (by decide) (by decide)
    (by decide) ⟨'b', by decide, by decide⟩

/-! ## Discovery-order naming of the subset construction (C9) -/

theorem mem_addState_states (A : Automaton) (n : String) (a i : Bool) (s : String) :
    s ∈ (A.addState n a i).states ↔ s = n ∨ s ∈ A.states := by
  unfold Automaton.addState
  split
  next hmem =>
    show s ∈ A.states ↔ _
    constructor
    · tauto
    · rintro (rfl | h)
      · exact hmem
      · exact h
  next hmem =>
    show s ∈ insS n A.states ↔ _
    exact mem_insS n s A.states

theorem addState_initial_false (A : Automaton) (n : String) (a : Bool) :
    (A.addState n a false).initial = A.initial := by
  unfold Automaton.addState
  split <;> rfl

theorem addTransition_states (A : Automaton) (src : String) (sym : Char)
    (dst : String) : (A.addTransition src sym dst).states = A.states := rfl

theorem addTransition_initial (A : Automaton) (src : String) (sym : Char)
    (dst : String) : (A.addTransition src sym dst).initial = A.initial := rfl

/-- The invariant threaded through the subset-construction loop: the DFA
built so far has initial state `q0` and its state set is exactly
`{q0, …, q(used-1)}`. -/
def detInv (st : DetSt) : Prop :=
  st.dfa.initial = some "q0" ∧ 0 < st.used ∧
    ∀ s, s ∈ st.dfa.states ↔ ∃ j, j < st.used ∧ s = tagName 'q' j

theorem detSymStep_inv (A : Automaton) (cs : List String) (cn : String)
    (st : DetSt) (sym : Char) (h : detInv st) :
    detInv (detSymStep A cs cn st sym) := by
  obtain ⟨h1, h2, h3⟩ := h
  unfold detSymStep
  dsimp only
  split
  · exact ⟨h1, h2, h3⟩
  · split
    next dst hdst =>
      refine ⟨?_, h2, ?_⟩
      · rw [addTransition_initial]
        exact h1
      · intro s
        rw [addTransition_states]
        exact h3 s
    next hdst =>
      refine ⟨?_, show 0 < st.used + 1 by omega, ?_⟩
      · rw [addTransition_initial, addState_initial_false]
        exact h1
      · intro s
        show s ∈ ((st.dfa.addState (tagName 'q' st.used) _ false).addTransition
            cn sym (tagName 'q' st.used)).states ↔ ∃ j, j < st.used + 1 ∧ _
        rw [addTransition_states, mem_addState_states, h3 s]
        constructor
        · rintro (rfl | ⟨j, hj, rfl⟩)
          · exact ⟨st.used, by omega, rfl⟩
          · exact ⟨j, by omega, rfl⟩
        · rintro ⟨j, hj, rfl⟩
          rcases Nat.lt_succ_iff_lt_or_eq.mp hj with hj2 | rfl
          · exact Or.inr ⟨j, hj2, rfl⟩
          · exact Or.inl rfl

theorem detFold_inv (A : Automaton) (cs : List String) (cn : String) :
    ∀ (syms : List Char) (st : DetSt), detInv st →
      detInv (syms.foldl (detSymStep A cs cn) st) := by
  intro syms
  induction syms with
  | nil => intro st h; exact h
  | cons c rest ih =>
    intro st h
    exact ih _ (detSymStep_inv A cs cn st c h)

theorem detLoop_inv (A : Automaton) :
    ∀ (fuel : Nat) (st : DetSt), detInv st →
      (detLoop A fuel st).initial = some "q0" ∧
      ∃ k, 0 < k ∧ ∀ s, s ∈ (detLoop A fuel st).states ↔
        ∃ j, j < k ∧ s = tagName 'q' j := by
  intro fuel
  induction fuel with
  | zero =>
    intro st h
    exact ⟨h.1, st.used, h.2.1, h.2.2⟩
  | succ f ih =>
    intro st h
    rcases hp : st.pending with _ | ⟨cset, rest⟩
    · simp only [detLoop, hp]
      exact ⟨h.1, st.used, h.2.1, h.2.2⟩
    · simp only [detLoop, hp]
      exact ih _ (detFold_inv A cset ((setLookup cset st.mapping).getD "")
        A.alphabet { st with pending := rest } ⟨h.1, h.2.1, h.2.2⟩)

/-- C9 amended: for every NFA with an initial state that is not already
deterministic, the subset construction names the resulting DFA states
`q0, q1, …` in discovery order: the result is `Except.ok`, its initial
state is `q0`, and its state set is exactly `{ q<j> : j < k }` for some
positive `k`. (On an already deterministic input the function returns
the input itself unchanged, see the counterexample theorem.) -/
theorem c9_amended_q_naming (A : Automaton) (i : String)
    (hinit : A.initial = some i) (hnd : A.isDeterministic = false) :
    ∃ D, A.determinize = .ok D ∧ D.initial = some "q0" ∧
      ∃ k, 0 < k ∧ ∀ s, s ∈ D.states ↔ ∃ j, j < k ∧ s = tagName 'q' j := by
  unfold Automaton.determinize
  rw [hinit, hnd]
  simp only [Bool.false_eq_true, if_false]
  refine ⟨_, rfl, ?_⟩
  apply detLoop_inv
  refine ⟨rfl, Nat.one_pos, ?_⟩
  intro s
  rw [mem_addState_states]
  constructor
  · rintro (rfl | h)
    · exact ⟨0, Nat.one_pos, by decide⟩
    · simp [Automaton.empty] at h
  · rintro ⟨j, hj, rfl⟩
    interval_cases j
    exact Or.inl (by decide)

/-- A nondeterministic two-state automaton (an epsilon transition), used
to witness the amended C9. -/
def c9nd : Automaton :=
  ((Automaton.empty.addState "n0" false true).addState "n1" true false).addTransition
    "n0" epsChar "n1"

/-- Witness for the amended C9 at a concrete input. -/
theorem c9_amended_witness :
    ∃ D, c9nd.determinize = .ok D ∧ D.initial = some "q0" ∧
      ∃ k, 0 < k ∧ ∀ s, s ∈ D.states ↔ ∃ j, j < k ∧ s = tagName 'q' j :=
  c9_amended_q_naming c9nd "n0" (by decide) (by decide)

/-! ## Correctness of the reachability scan (C3) -/

/-- One transition step, on any symbol including epsilon, exactly the
edges the reachability scan follows. -/
def stepRel (A : Automaton) (s t : String) : Prop :=
  t ∈ A.allSucc s

/-- Graph reachability from the initial state. -/
def Reach (A : Automaton) (init s : String) : Prop :=
  Relation.ReflTransGen (stepRel A) init s

theorem filter_sub_sum_le (w : String → Nat) (p q : String → Bool)
    (hpq : ∀ x, p x = true → q x = true) :
    ∀ l : List String, ((l.filter p).map w).sum ≤ ((l.filter q).map w).sum := by
  intro l
  induction l with
  | nil => simp
  | cons a as ih =>
    by_cases hp : p a = true
    · rw [List.filter_cons_of_pos hp, List.filter_cons_of_pos (hpq a hp)]
      simp only [List.map_cons, List.sum_cons]
      omega
    · rw [List.filter_cons_of_neg (by simpa using hp)]
      by_cases hq : q a = true
      · rw [List.filter_cons_of_pos hq]
        simp only [List.map_cons, List.sum_cons]
        omega
      · rw [List.filter_cons_of_neg (by simpa using hq)]
        exact ih

/-- Expanding an unvisited universe element pays for its weight: the
budget drops by at least `bfsWeight s`. -/
theorem bfsBudget_expand (A : Automaton) (init : String)
    (reach : List String) (s : String) (hU : s ∈ bfsUniverse A init)
    (hns : s ∉ reach) :
    bfsBudget A init (insS s reach) + bfsWeight A s ≤ bfsBudget A init reach := by
  unfold bfsBudget
  have key : ∀ (U : List String), s ∈ U →
      (((U.filter (fun x => x ∉ insS s reach)).map (bfsWeight A)).sum + bfsWeight A s ≤
        ((U.filter (fun x => x ∉ reach)).map (bfsWeight A)).sum) := by
    intro U
    induction U with
    | nil => simp
    | cons u us ih =>
      intro hu
      have hmono : ∀ x : String,
          (decide (x ∉ insS s reach)) = true → (decide (x ∉ reach)) = true := by
        intro x hx
        simp only [decide_eq_true_eq] at hx ⊢
        intro hmem
        exact hx ((mem_insS s x reach).mpr (Or.inr hmem))
      by_cases hus : u = s
      · subst hus
        rw [List.filter_cons_of_neg
          (by simp [mem_insS])]
        rw [List.filter_cons_of_pos (by simpa using hns)]
        simp only [List.map_cons, List.sum_cons]
        have := filter_sub_sum_le (bfsWeight A) _ _ hmono us
        omega
      · rcases List.mem_cons.mp hu with h | h
        · exact absurd h.symm hus
        · by_cases hur : u ∈ reach
          · rw [List.filter_cons_of_neg
              (by simp only [decide_eq_true_eq, Decidable.not_not]
                  exact (mem_insS s u reach).mpr (Or.inr hur))]
            rw [List.filter_cons_of_neg
              (by simpa using hur)]
            exact ih h
          · rw [List.filter_cons_of_pos
              (by simp only [decide_eq_true_eq]
                  intro hx
                  rcases (mem_insS s u reach).mp hx with h2 | h2
                  · exact hus h2
                  · exact hur h2)]
            rw [List.filter_cons_of_pos (by simpa using hur)]
            simp only [List.map_cons, List.sum_cons]
            have := ih h
            omega
  exact key (bfsUniverse A init) hU

/-- Anything in the result of the push fold lies in the start stack or
among the successors folded over. -/
theorem pushFold_sub (reach2 : List String) :
    ∀ (succs st : List String) (y : String),
      y ∈ succs.foldl (fun acc d => if d ∈ reach2 then acc else d :: acc) st →
      y ∈ st ∨ y ∈ succs := by
  intro succs
  induction succs with
  | nil =>
    intro st y hy
    exact Or.inl hy
  | cons d ds ih =>
    intro st y hy
    simp only [List.foldl_cons] at hy
    rcases ih _ y hy with h | h
    · by_cases hd : d ∈ reach2
      · rw [if_pos hd] at h
        exact Or.inl h
      · rw [if_neg hd] at h
        rcases List.mem_cons.mp h with rfl | h2
        · exact Or.inr (List.mem_cons_self _ _)
        · exact Or.inl h2
    · exact Or.inr (List.mem_cons_of_mem _ h)

/-- The push fold only grows the stack. -/
theorem pushFold_init (reach2 : List String) :
    ∀ (succs st : List String) (y : String), y ∈ st →
      y ∈ succs.foldl (fun acc d => if d ∈ reach2 then acc else d :: acc) st := by
  intro succs
  induction succs with
  | nil =>
    intro st y hy
    exact hy
  | cons d ds ih =>
    intro st y hy
    simp only [List.foldl_cons]
    apply ih
    by_cases hd : d ∈ reach2
    · rw [if_pos hd]
      exact hy
    · rw [if_neg hd]
      exact List.mem_cons_of_mem _ hy

/-- Every folded successor ends up visited or on the stack. -/
theorem pushFold_covers (reach2 : List String) :
    ∀ (succs st : List String) (d : String), d ∈ succs →
      d ∈ reach2 ∨
        d ∈ succs.foldl (fun acc e => if e ∈ reach2 then acc else e :: acc) st := by
  intro succs
  induction succs with
  | nil =>
    intro st d hd
    simp at hd
  | cons e es ih =>
    intro st d hd
    rcases List.mem_cons.mp hd with rfl | h
    · by_cases he : d ∈ reach2
      · exact Or.inl he
      · refine Or.inr ?_
        simp only [List.foldl_cons, if_neg he]
        exact pushFold_init reach2 es _ d (List.mem_cons_self _ _)
    · rcases ih _ d h with h2 | h2
      · exact Or.inl h2
      · refine Or.inr ?_
        simp only [List.foldl_cons]
        exact h2

/-- Length bound for the push fold. -/
theorem pushFold_len (reach2 : List String) :
    ∀ (succs st : List String),
      (succs.foldl (fun acc d => if d ∈ reach2 then acc else d :: acc) st).length ≤
        st.length + succs.length := by
  intro succs
  induction succs with
  | nil =>
    intro st
    simp
  | cons d ds ih =>
    intro st
    simp only [List.foldl_cons, List.length_cons]
    calc (ds.foldl _ (if d ∈ reach2 then st else d :: st)).length
        ≤ (if d ∈ reach2 then st else d :: st).length + ds.length := ih _
      _ ≤ st.length + (ds.length + 1) := by
          by_cases hd : d ∈ reach2
          · rw [if_pos hd]
            omega
          · rw [if_neg hd]
            simp only [List.length_cons]
            omega

/-- A fold whose step only grows the accumulator preserves membership. -/
theorem foldl_grow_mem {β : Type} (g : List String → β → List String)
    (hg : ∀ acc b x, x ∈ acc → x ∈ g acc b) :
    ∀ (l : List β) (acc : List String) (x : String), x ∈ acc →
      x ∈ l.foldl g acc := by
  intro l
  induction l with
  | nil =>
    intro acc x hx
    exact hx
  | cons b bs ih =>
    intro acc x hx
    exact ih _ x (hg acc b x hx)

theorem mem_inner_destFold (buckets : List (Char × List String)) :
    ∀ (acc : List String) (b : Char × List String), b ∈ buckets →
      ∀ d ∈ b.2, d ∈ buckets.foldl (fun ac b2 => unionS ac b2.2) acc := by
  induction buckets with
  | nil =>
    intro acc b hb
    simp at hb
  | cons b0 bs ih =>
    intro acc b hb d hd
    rcases List.mem_cons.mp hb with rfl | h
    · simp only [List.foldl_cons]
      apply foldl_grow_mem _ (fun a2 b2 x hx => (mem_unionS x a2 b2.2).mpr (Or.inl hx))
      exact (mem_unionS d acc b.2).mpr (Or.inr hd)
    · simp only [List.foldl_cons]
      exact ih _ b h d hd

/-- The flat successor list of a state is covered by the canonical
destination set. -/
theorem allSucc_subset_allDests (A : Automaton) (s : String) (d : String)
    (hd : d ∈ A.allSucc s) : d ∈ allDestsCanon A := by
  unfold Automaton.allSucc at hd
  rcases ha : alookup s A.transitions with _ | buckets
  · rw [ha] at hd
    simp at hd
  · rw [ha] at hd
    simp only [Option.getD_some] at hd
    have hbd : ∃ b ∈ buckets, d ∈ b.2 := by
      have gen : ∀ (l : List (Char × List String)) (acc : List String),
          d ∈ l.foldl (fun ac b => ac ++ b.2) acc → d ∈ acc ∨ ∃ b ∈ l, d ∈ b.2 := by
        intro l
        induction l with
        | nil =>
          intro acc h
          exact Or.inl h
        | cons b bs ih =>
          intro acc h
          rcases ih _ h with h2 | ⟨b2, hb2, hd2⟩
          · rcases List.mem_append.mp h2 with h3 | h3
            · exact Or.inl h3
            · exact Or.inr ⟨b, List.mem_cons_self _ _, h3⟩
          · exact Or.inr ⟨b2, List.mem_cons_of_mem _ hb2, hd2⟩
      rcases gen buckets [] hd with h | h
      · simp at h
      · exact h
    obtain ⟨b, hb, hdb⟩ := hbd
    have hentry := alookup_mem s A.transitions buckets ha
    unfold allDestsCanon
    have gen2 : ∀ (l : List (String × List (Char × List String)))
        (acc : List String), (s, buckets) ∈ l →
        d ∈ l.foldl (fun ac e => e.2.foldl (fun a2 b2 => unionS a2 b2.2) ac) acc := by
      intro l
      induction l with
      | nil =>
        intro acc h
        simp at h
      | cons e es ih =>
        intro acc h
        rcases List.mem_cons.mp h with heq | h2
        · simp only [List.foldl_cons]
          apply foldl_grow_mem _
            (fun a2 e2 x hx =>
              foldl_grow_mem _
                (fun a3 b3 y hy => (mem_unionS y a3 b3.2).mpr (Or.inl hy)) e2.2 a2 x hx)
          rw [← heq]
          exact mem_inner_destFold buckets acc b hb d hdb
        · simp only [List.foldl_cons]
          exact ih _ h2
    exact gen2 A.transitions [] hentry

/-- Soundness of the scan: everything collected is reachable. -/
theorem reachGo_sound (A : Automaton) (init : String) :
    ∀ (fuel : Nat) (reach stack : List String),
      (∀ x ∈ reach, Reach A init x) → (∀ x ∈ stack, Reach A init x) →
      ∀ x ∈ reachGo A fuel reach stack, Reach A init x := by
  intro fuel
  induction fuel with
  | zero =>
    intro reach stack hr hs x hx
    exact hr x (by simpa [reachGo] using hx)
  | succ f ih =>
    intro reach stack hr hs x hx
    rcases stack with _ | ⟨s, rest⟩
    · exact hr x (by simpa [reachGo] using hx)
    · simp only [reachGo] at hx
      split at hx
      · exact ih _ _ hr (fun y hy => hs y (List.mem_cons_of_mem _ hy)) x hx
      · have hsR : Reach A init s := hs s (List.mem_cons_self _ _)
        refine ih _ _ ?_ ?_ x hx
        · intro y hy
          rcases (mem_insS s y reach).mp hy with rfl | h
          · exact hsR
          · exact hr y h
        · intro y hy
          rcases pushFold_sub (insS s reach) (A.allSucc s) rest y hy with h | h
          · exact hs y (List.mem_cons_of_mem _ h)
          · exact Relation.ReflTransGen.tail hsR h

/-- Completeness of the scan under sufficient fuel: the result swallows
the stack and the visited set and is closed under successors. -/
theorem reachGo_complete (A : Automaton) (init : String) :
    ∀ (fuel : Nat) (reach stack : List String),
      (∀ x ∈ stack, x ∈ bfsUniverse A init) →
      (∀ x ∈ reach, ∀ d ∈ A.allSucc x, d ∈ reach ∨ d ∈ stack) →
      stack.length + bfsBudget A init reach ≤ fuel →
      (∀ x ∈ stack, x ∈ reachGo A fuel reach stack) ∧
      (∀ x ∈ reach, x ∈ reachGo A fuel reach stack) ∧
      (∀ x ∈ reachGo A fuel reach stack, ∀ d ∈ A.allSucc x,
        d ∈ reachGo A fuel reach stack) := by
  intro fuel
  induction fuel with
  | zero =>
    intro reach stack hU hinv hfuel
    have hstack : stack = [] := List.length_eq_zero.mp (by omega)
    subst hstack
    refine ⟨by simp, fun x hx => by simpa [reachGo] using hx, ?_⟩
    intro x hx d hd
    simp only [reachGo] at hx ⊢
    rcases hinv x hx d hd with h | h
    · exact h
    · simp at h
  | succ f ih =>
    intro reach stack hU hinv hfuel
    rcases stack with _ | ⟨s, rest⟩
    · refine ⟨by simp, fun x hx => by simpa [reachGo] using hx, ?_⟩
      intro x hx d hd
      simp only [reachGo] at hx ⊢
      rcases hinv x hx d hd with h | h
      · exact h
      · simp at h
    · simp only [reachGo]
      by_cases hsr : s ∈ reach
      · rw [if_pos hsr]
        obtain ⟨ihStack, ihReach, ihClosed⟩ := ih reach rest
          (fun y hy => hU y (List.mem_cons_of_mem _ hy))
          (fun x hx d hd => by
            rcases hinv x hx d hd with h | h
            · exact Or.inl h
            · rcases List.mem_cons.mp h with rfl | h2
              · exact Or.inl hsr
              · exact Or.inr h2)
          (by simp only [List.length_cons] at hfuel; omega)
        refine ⟨?_, ihReach, ihClosed⟩
        intro x hx
        rcases List.mem_cons.mp hx with rfl | h2
        · exact ihReach x hsr
        · exact ihStack x h2
      · rw [if_neg hsr]
        have hsU : s ∈ bfsUniverse A init := hU s (List.mem_cons_self _ _)
        obtain ⟨ihStack, ihReach, ihClosed⟩ := ih (insS s reach)
          ((A.allSucc s).foldl
            (fun acc d => if d ∈ insS s reach then acc else d :: acc) rest)
          (fun y hy => by
            rcases pushFold_sub (insS s reach) (A.allSucc s) rest y hy with h | h
            · exact hU y (List.mem_cons_of_mem _ h)
            · exact (mem_insS init y (allDestsCanon A)).mpr
                (Or.inr (allSucc_subset_allDests A s y h)))
          (fun x hx d hd => by
            rcases (mem_insS s x reach).mp hx with rfl | h
            · exact pushFold_covers _ _ rest d hd
            · rcases hinv x h d hd with h2 | h2
              · exact Or.inl ((mem_insS s d reach).mpr (Or.inr h2))
              · rcases List.mem_cons.mp h2 with rfl | h3
                · exact Or.inl ((mem_insS d d reach).mpr (Or.inl rfl))
                · exact Or.inr (pushFold_init (insS s reach) (A.allSucc s) rest d h3))
          (by
            have hlen := pushFold_len (insS s reach) (A.allSucc s) rest
            have hbud := bfsBudget_expand A init reach s hsU hsr
            unfold bfsWeight at hbud
            simp only [List.length_cons] at hfuel
            omega)
        refine ⟨?_, ?_, ihClosed⟩
        · intro x hx
          rcases List.mem_cons.mp hx with rfl | h2
          · exact ihReach x ((mem_insS x x reach).mpr (Or.inl rfl))
          · exact ihStack x (pushFold_init (insS s reach) (A.allSucc s) rest x h2)
        · intro x hx
          exact ihReach x ((mem_insS s x reach).mpr (Or.inr hx))

/-- The scan of `remove_unreachable` computes exactly the reachable
states. -/
theorem mem_reachableFromInitial (A : Automaton) (init : String) (x : String) :
    x ∈ A.reachableFromInitial init ↔ Reach A init x := by
  constructor
  · intro hx
    refine reachGo_sound A init _ [] [init] (by simp) ?_ x hx
    intro y hy
    have : y = init := by simpa using hy
    subst this
    exact Relation.ReflTransGen.refl
  · intro hx
    obtain ⟨hstack, hreach, hclosed⟩ :=
      reachGo_complete A init (bfsBudget A init [] + 1) [] [init]
        (fun y hy => by
          have h2 : y = init := by simpa using hy
          rw [h2]
          exact (mem_insS _ _ (allDestsCanon A)).mpr (Or.inl rfl))
        (by simp)
        (by simp only [List.length_singleton]; omega)
    unfold Automaton.reachableFromInitial
    induction hx with
    | refl => exact hstack init (List.mem_cons_self _ _)
    | tail hab hbc ihs => exact hclosed _ ihs _ hbc

/-- C3 amended: `determinize` does not mutate its input, but on an
already deterministic automaton it returns the input itself rather than
a fresh automaton; `minimize_hopcroft` mutates its input in place before
minimizing, discarding exactly the states (with their transition entries
and accept marks) unreachable from the initial state, while the alphabet
and initial state stay unchanged. -/
theorem c3_amended_mutation_and_self_return (A : Automaton) (i : String)
    (hdet : A.isDeterministic = true) (hinit : A.initial = some i) :
    A.determinize = .ok A ∧
    ∃ res, minimizeHopcroft A = .ok (A.removeUnreachable, res) ∧
      (∀ s, s ∈ A.removeUnreachable.states ↔ s ∈ A.states ∧ Reach A i s) ∧
      A.removeUnreachable.alphabet = A.alphabet ∧
      A.removeUnreachable.initial = A.initial ∧
      (∀ s, s ∈ A.removeUnreachable.accepts ↔ s ∈ A.accepts ∧ Reach A i s) := by
  constructor
  · unfold Automaton.determinize
    rw [hinit]
    simp [hdet]
  · have hmin : ∃ res, minimizeHopcroft A = .ok (A.removeUnreachable, res) := by
      unfold minimizeHopcroft
      simp only [hdet, Bool.not_true, Bool.false_eq_true, if_false]
      rw [hinit]
      exact ⟨_, rfl⟩
    obtain ⟨res, hres⟩ := hmin
    refine ⟨res, hres, ?_, ?_, ?_, ?_⟩
    · intro s
      unfold Automaton.removeUnreachable
      rw [hinit]
      simp only [List.mem_filter, decide_eq_true_eq]
      rw [mem_reachableFromInitial]
    · unfold Automaton.removeUnreachable
      rw [hinit]
    · unfold Automaton.removeUnreachable
      rw [hinit]
    · intro s
      unfold Automaton.removeUnreachable
      rw [hinit]
      simp only [List.mem_filter, decide_eq_true_eq]
      rw [mem_reachableFromInitial]

/-- Witness for the amended C3 at a concrete input: the DFA `c3aut`
with its unreachable state `u`. -/
theorem c3_amended_witness :
    c3aut.determinize = .ok c3aut ∧
    ∃ res, minimizeHopcroft c3aut = .ok (c3aut.removeUnreachable, res) ∧
      (∀ s, s ∈ c3aut.removeUnreachable.states ↔
        s ∈ c3aut.states ∧ Reach c3aut "p" s) ∧
      c3aut.removeUnreachable.alphabet = c3aut.alphabet ∧
      c3aut.removeUnreachable.initial = c3aut.initial ∧
      (∀ s, s ∈ c3aut.removeUnreachable.accepts ↔
        s ∈ c3aut.accepts ∧ Reach c3aut "p" s) :=
  c3_amended_mutation_and_self_return c3aut "p" (by decide) (by decide)

end RegexAut
